import Mathlib

/-!
Verification of the scheduling core of the Construction Scheduler
(`scheduling.py`): critical-path baseline, resource leveling, project
metrics and the greedy capacity suggester.

Modelling conventions:
* Python floats are modelled by `ℚ`; every arithmetic operation the code
  performs on times (`+`, `max`, `min`, comparisons) is exact on the
  rationals, and the two literal epsilons `1e-9` and `1e-6` are the
  rationals `1/1000000000` and `1/1000000`.
* Python dicts keyed by strings are association lists `List (String × _)`
  (insertion order preserved, assignment overwrites in place) or, for the
  write-once maps inside `compute_cpm_baseline`, functions
  `String → Option _` where `none` models a missing key.
* A Python `KeyError` is modelled by propagating `none`ᵢ through an
  `Option` result: `compute_cpm_baseline` returns `none` exactly when the
  source would raise.
* `t.get("x")` truthiness on strings: both a missing key and the empty
  string are falsy, which `truthy?` captures.
-/

namespace CSched

/-- A task record as produced by the ingestion layer.  `sect` stands for
the Python key `"section"` (`section` is reserved in Lean). -/
structure Task where
  id : String
  name : String
  sect : Option String
  subsection : Option String
  planned_day : Int
  duration_hours : Option ℚ
  crew_code : Option String
  crew_category : Option String
  dependencies : List String
  deriving DecidableEq

/-- One entry of the dict returned by `compute_cpm_baseline`. -/
structure CpmRec where
  duration : ℚ
  es : ℚ
  ef : ℚ
  ls : ℚ
  lf : ℚ
  slack : ℚ
  critical : Bool
  deriving DecidableEq

/-- The part of a baseline record that `level_resources` reads
(`base_info[tid]["es"]` and `...["ef"]`).  The app always passes a
baseline covering the whole task set, so the baseline is modelled as a
total function `String → BaseRec`. -/
structure BaseRec where
  es : ℚ
  ef : ℚ
  deriving DecidableEq

/-- One record of the `scheduled` list kept in pooled mode:
`{"cat": ..., "start": ..., "finish": ...}`. -/
structure SchedRec where
  cat : String
  start : ℚ
  finish : ℚ
  deriving DecidableEq

/-- One entry of the schedule dict returned by `level_resources`. -/
structure Entry where
  task : String
  sect : Option String
  subsection : Option String
  start : ℚ
  finish : ℚ
  duration : ℚ
  crew_code : Option String
  crew_category : Option String
  delay_vs_cpm_start : ℚ
  delay_vs_cpm_finish : ℚ
  deriving DecidableEq

/-- Python truthiness of an optional string: `None` and `""` are falsy. -/
def truthy? : Option String → Bool
  | none => false
  | some s => !s.isEmpty

/-- `o or d` on optional strings: the default replaces a falsy value. -/
def strOr (o : Option String) (d : String) : String :=
  match o with
  | none => d
  | some s => if s.isEmpty then d else s

/-- `float(t["duration_hours"] or 0.0)`: a missing duration is 0. -/
def durOf (t : Task) : ℚ := t.duration_hours.getD 0

/-- Dict lookup on an association list (keys are unique, first match). -/
def dlookup (m : List (String × Entry)) (k : String) : Option Entry :=
  (m.find? (fun p => p.1 == k)).map (fun p => p.2)

/-- Dict assignment `m[k] = v`: overwrite in place if the key exists,
otherwise append (Python dicts preserve insertion order). -/
def setEntry (m : List (String × Entry)) (k : String) (v : Entry) :
    List (String × Entry) :=
  if m.any (fun p => p.1 == k) then
    m.map (fun p => if p.1 == k then (k, v) else p)
  else
    m ++ [(k, v)]

/-- `capacity_by_category.get(cat)` on the capacity dict. -/
def capLookup (m : List (String × ℤ)) (k : String) : Option ℤ :=
  (m.find? (fun p => p.1 == k)).map (fun p => p.2)

/-- The task bound to an id by `{t["id"]: t for t in tasks}`: a dict
comprehension keeps the last binding of a duplicated key. -/
def lastTask (tasks : List Task) (tid : String) : Option Task :=
  tasks.reverse.find? (fun t => t.id == tid)

/-- The dependency sets of `compute_cpm_baseline` and (by default) of
`topological_order`: per task id, its dependencies restricted to ids
present in the set, as a Python `set` (deduplicated). -/
def depsOf (tasks : List Task) (tid : String) : List String :=
  let ids := tasks.map (fun t => t.id)
  match lastTask tasks tid with
  | some t => (t.dependencies.filter (fun d => ids.contains d)).dedup
  | none => []

/-- The dependency lists of `level_resources`: a list comprehension, not a
set, restricted to in-set ids. -/
def levelDeps (tasks : List Task) (tid : String) : List String :=
  let ids := tasks.map (fun t => t.id)
  match lastTask tasks tid with
  | some t => t.dependencies.filter (fun d => ids.contains d)
  | none => []

/-- Kahn's ready-queue loop of `topological_order`, with explicit fuel.
Each iteration pops one queue element; an id enters the queue at most
once over the whole run (when its residual dependency list first becomes
empty), so the loop runs at most `|queue| + |ids|` iterations, which is
the fuel the caller supplies: the `0` case is never reached with a
non-empty queue.  Removing `u` from every residual dependency list and
enqueueing the ids whose list just became empty is exactly the source's
in-degree bookkeeping, since the in-degree of `v` is the size of its
residual list. -/
def kahnFuel (ids : List String) :
    Nat → (String → List String) → List String → List String → List String
  | 0, _, _, order => order
  | fuel + 1, dl, queue, order =>
    match queue with
    | [] => order
    | u :: qs =>
      kahnFuel ids fuel (fun v => (dl v).filter (fun d => d != u))
        (qs ++ ids.filter
          (fun v => (dl v).contains u && ((dl v).filter (fun d => d != u)).isEmpty))
        (order ++ [u])

/-- `topological_order(tasks, deps)`.  Ids that never reach in-degree
zero (cycles) are appended afterwards in residual order.  The in-degree
dict is keyed by distinct ids, so the queue seeds and the enqueue scan
run over `ids.dedup`; the trailing `remaining` comprehension runs over
the raw id list, as in the source. -/
def topological_order (tasks : List Task) (deps? : Option (String → List String)) :
    List String :=
  let ids := tasks.map (fun t => t.id)
  let deps := match deps? with
    | some d => d
    | none => depsOf tasks
  let idsD := ids.dedup
  let q0 := idsD.filter (fun tid => (deps tid).isEmpty)
  let order := kahnFuel idsD (q0.length + idsD.length) deps q0 []
  order ++ ids.filter (fun tid => !(order.contains tid))

/-- The duration stored in `info` by `compute_cpm_baseline` (dict
comprehension over tasks: last binding of an id wins). -/
def cpmDurs (tasks : List Task) (tid : String) : ℚ :=
  match lastTask tasks tid with
  | some t => durOf t
  | none => 0

/-- One step of the forward (ES/EF) pass.  `m p = none` models the
`KeyError` the source raises when `info[p]["ef"]` has not been set yet
(which happens on cyclic input); `max` over an empty predecessor set is
the `es = 0.0` default. -/
def fwdStep (deps : String → List String) (durs : String → ℚ)
    (acc : Option (String → Option (ℚ × ℚ))) (tid : String) :
    Option (String → Option (ℚ × ℚ)) :=
  match acc with
  | none => none
  | some m =>
    match (deps tid).mapM (fun p => m p) with
    | none => none
    | some rs =>
      let es := ((rs.map (fun pr => pr.2)).max?).getD 0
      some (fun i => if i = tid then some (es, es + durs tid) else m i)

/-- One step of the backward (LS/LF) pass, building the final records.
`f s = none` models the `KeyError` on `info[s]["ls"]`. -/
def bwdStep (durs : String → ℚ) (succs : String → List String)
    (m : String → Option (ℚ × ℚ)) (proj : ℚ)
    (acc : Option (String → Option CpmRec)) (tid : String) :
    Option (String → Option CpmRec) :=
  match acc with
  | none => none
  | some f =>
    match m tid with
    | none => none
    | some esef =>
      let lfOpt : Option ℚ :=
        if (succs tid).isEmpty then some proj
        else
          match (succs tid).mapM (fun s => (f s).map (fun r => r.ls)) with
          | none => none
          | some lss => lss.min?
      match lfOpt with
      | none => none
      | some lf =>
        let ls := lf - durs tid
        let slack := max 0 (ls - esef.1)
        some (fun i =>
          if i = tid then
            some ⟨durs tid, esef.1, esef.2, ls, lf, slack,
              decide (abs slack < 1 / 1000000000)⟩
          else f i)

/-- The successor sets of `compute_cpm_baseline` (membership only used
for emptiness and an order-insensitive `min`). -/
def cpmSuccs (tasks : List Task) (tid : String) : List String :=
  (tasks.map (fun t => t.id)).filter (fun v => (depsOf tasks v).contains tid)

/-- The forward pass of `compute_cpm_baseline` over the topological
order. -/
def cpmFwd (tasks : List Task) : Option (String → Option (ℚ × ℚ)) :=
  (topological_order tasks (some (depsOf tasks))).foldl
    (fwdStep (depsOf tasks) (cpmDurs tasks)) (some (fun _ => none))

/-- The backward pass of `compute_cpm_baseline` over the reversed
order. -/
def cpmBwd (tasks : List Task) (m : String → Option (ℚ × ℚ)) (proj : ℚ) :
    Option (String → Option CpmRec) :=
  (topological_order tasks (some (depsOf tasks))).reverse.foldl
    (bwdStep (cpmDurs tasks) (cpmSuccs tasks) m proj) (some (fun _ => none))

/-- `compute_cpm_baseline(tasks)`.  Returns `none` exactly when the
source raises (`KeyError` on a cyclic dependency subgraph); otherwise
`some f` with `f tid` the record of task `tid`.  The project finish is
`max(EF)` over all tasks with default 0. -/
def compute_cpm_baseline (tasks : List Task) : Option (String → Option CpmRec) :=
  match cpmFwd tasks with
  | none => none
  | some m =>
    match (tasks.map (fun t => t.id)).mapM (fun tid => m tid) with
    | none => none
    | some rs => cpmBwd tasks m (((rs.map (fun pr => pr.2)).max?).getD 0)

/-- Looking one task up in the baseline: `compute_cpm_baseline(tasks)[tid]`. -/
def cpmLookup (tasks : List Task) (tid : String) : Option CpmRec :=
  (compute_cpm_baseline tasks).bind (fun f => f tid)

/-- Adapter from a computed baseline to the total baseline view used by
`level_resources`; the app always passes a baseline covering the task
set, so the default is never read. -/
def baseOfCpm (tasks : List Task) : String → BaseRec := fun tid =>
  match cpmLookup tasks tid with
  | some r => ⟨r.es, r.ef⟩
  | none => ⟨0, 0⟩

/-- `cat_active_at(tp)`: accepted same-category intervals strictly
containing the instant `tp` (open-interval semantics on both ends). -/
def cat_active_at (recs : List SchedRec) (cat : String) (tp : ℚ) : Nat :=
  recs.countP (fun r => r.cat == cat && decide (r.start < tp) && decide (tp < r.finish))

/-- The `finishes` list of the admission loop: finish times of accepted
same-category intervals strictly after the candidate start. -/
def blockingFinishes (recs : List SchedRec) (cat : String) (s : ℚ) : List ℚ :=
  (recs.filter (fun r => r.cat == cat && decide (s < r.finish))).map (fun r => r.finish)

/-- The pooled admission loop
`while dur > 0 and cat_active_at(start) >= cap: start = min(finishes) ...`,
with explicit fuel.  `none` marks a run out of fuel or the
`finishes == []` fallback, in which the source loops forever at an
unchanged start; with `cap ≥ 1` neither is reachable at fuel
`recs.length + 1` (each jump strictly shrinks the set of same-category
finishes after the candidate), which is what the caller supplies. -/
def admitFuel (recs : List SchedRec) (cat : String) (cap : ℤ) (dur : ℚ) :
    Nat → ℚ → Option ℚ
  | 0, s =>
    if 0 < dur ∧ cap ≤ (cat_active_at recs cat s : ℤ) then none else some s
  | fuel + 1, s =>
    if 0 < dur ∧ cap ≤ (cat_active_at recs cat s : ℤ) then
      match (blockingFinishes recs cat s).min? with
      | some m => admitFuel recs cat cap dur fuel m
      | none => none
    else some s

/-- The dependency-ready time `est` of one task: the maximum of the
finishes of already-scheduled in-set dependencies (falling back to the
dependency's baseline EF — with a total baseline the `elif dep in
base_info` guard of the source always holds), floored at the task's own
baseline ES. -/
def estOf (tasks : List Task) (base : String → BaseRec)
    (sched : List (String × Entry)) (t : Task) : ℚ :=
  max
    ((levelDeps tasks t.id).foldl
      (fun acc dep =>
        match dlookup sched dep with
        | some e => max acc e.finish
        | none => max acc (base dep).ef) 0)
    ((base t.id).es)

/-- The strict comparison of the sort keys
`(base_info[t["id"]]["es"], t["planned_day"], t["name"])`. -/
def taskLT (base : String → BaseRec) (a b : Task) : Bool :=
  decide ((base a.id).es < (base b.id).es) ||
    (decide ((base a.id).es = (base b.id).es) &&
      (decide (a.planned_day < b.planned_day) ||
        (decide (a.planned_day = b.planned_day) && decide (a.name < b.name))))

/-- Insert into a sorted list, after every strictly smaller element and
before the first element that is not strictly smaller (so before equal
keys already present: the element being inserted is the one that came
earlier in the original list). -/
def insertByKey (lt : α → α → Bool) (a : α) : List α → List α
  | [] => [a]
  | b :: l => if lt b a then b :: insertByKey lt a l else a :: b :: l

/-- A stable ascending sort, modelling Python's stable `sorted` with the
key comparison `taskLT` (any stable sort under a total lexicographic key
produces the same list `sorted` does). -/
def sortStable (lt : α → α → Bool) : List α → List α
  | [] => []
  | a :: l => insertByKey lt a (sortStable lt l)

/-- The state threaded through the scheduling loop of `level_resources`:
the schedule dict, the pooled-mode `scheduled` interval list, and the
exclusive-mode `code_busy_until` defaultdict (default 0). -/
structure LevelState where
  schedule : List (String × Entry)
  scheduled : List SchedRec
  busy : String → ℚ

/-- The start time `level_resources` picks for one task: `est` if the
task has neither crew category nor crew code; the pooled admission loop
result in pooled mode (capacity `max(1, capacity_by_category.get(cat, 1))`);
`max(est, code_busy_until[code])` in exclusive mode. -/
def startOf (pool : Bool) (capmap : List (String × ℤ)) (st : LevelState)
    (t : Task) (est dur : ℚ) : ℚ :=
  if !(truthy? t.crew_category) && !(truthy? t.crew_code) then est
  else if pool then
    let cat := strOr t.crew_category "UNSPEC"
    let cap : ℤ := max 1 ((capLookup capmap cat).getD 1)
    (admitFuel st.scheduled cat cap dur (st.scheduled.length + 1) est).getD est
  else
    max est (st.busy (strOr t.crew_code "UNSPEC"))

/-- One iteration of the scheduling loop of `level_resources` for task
`t`: compute `est`, pick the start by mode, record the schedule entry,
and update the pooled interval list or the busy-until watermark (both
updates happen for every task, crewed or not, as in the source). -/
def levelStep (tasks : List Task) (base : String → BaseRec) (pool : Bool)
    (capmap : List (String × ℤ)) (st : LevelState) (t : Task) : LevelState :=
  let dur := durOf t
  let est := estOf tasks base st.schedule t
  let start := startOf pool capmap st t est dur
  let finish := start + dur
  let e : Entry :=
    { task := t.name, sect := t.sect, subsection := t.subsection,
      start := start, finish := finish, duration := dur,
      crew_code := t.crew_code, crew_category := t.crew_category,
      delay_vs_cpm_start := max 0 (start - (base t.id).es),
      delay_vs_cpm_finish := max 0 (finish - (base t.id).ef) }
  { schedule := setEntry st.schedule t.id e,
    scheduled :=
      if pool then st.scheduled ++ [⟨strOr t.crew_category "UNSPEC", start, finish⟩]
      else st.scheduled,
    busy :=
      if pool then st.busy
      else fun c => if c = strOr t.crew_code "UNSPEC" then finish else st.busy c }

/-- `level_resources(tasks, base_info, pool_by_category,
capacity_by_category)`: process the tasks sorted by
`(baseline ES, planned_day, name)` and return the schedule dict. -/
def level_resources (tasks : List Task) (base : String → BaseRec)
    (pool_by_category : Bool) (capacity_by_category : List (String × ℤ)) :
    List (String × Entry) :=
  ((sortStable (taskLT base) tasks).foldl
    (levelStep tasks base pool_by_category capacity_by_category)
    ⟨[], [], fun _ => 0⟩).schedule

/-- `compute_project_metrics(schedule, hours_per_day)["duration_days"]`:
`max(finish) / max(1, hours_per_day)`, and 0 for an empty schedule. -/
def compute_project_metrics (schedule : List (String × Entry))
    (hours_per_day : ℚ) : ℚ :=
  if schedule.isEmpty then 0
  else ((schedule.map (fun p => p.2.finish)).max?.getD 0) / max 1 hours_per_day

/-- The `duration_with(caps_in)` closure of
`suggest_capacities_to_hit_target`: one pooled leveling pass plus the
duration metric (`caps_in if caps_in else {}` is the identity on
association lists). -/
def duration_with (tasks : List Task) (base : String → BaseRec)
    (hours_per_day : ℚ) (caps_in : List (String × ℤ)) : ℚ :=
  compute_project_metrics (level_resources tasks base true caps_in) hours_per_day

/-- `trial = deepcopy(caps); trial[c] = trial[c] + 1` (the key is always
present, since `c` ranges over the keys of `caps`). -/
def incrCap (caps : List (String × ℤ)) (c : String) : List (String × ℤ) :=
  caps.map (fun q => if q.1 == c then (q.1, q.2 + 1) else q)

/-- `caps.setdefault(c, v)`: append the binding only if the key is
absent. -/
def setdefaultCap (m : List (String × ℤ)) (k : String) (v : ℤ) :
    List (String × ℤ) :=
  if m.any (fun p => p.1 == k) then m else m ++ [(k, v)]

/-- One candidate of the best-trial scan: increment category `p.1` of
`caps`, re-level, and keep the strictly greatest improvement (the first
key wins ties, as `improvement > best[0]` is strict). -/
def trialStep (tasks : List Task) (base : String → BaseRec)
    (hours_per_day : ℚ) (caps : List (String × ℤ)) (curr : ℚ)
    (best : Option (ℚ × String × ℚ × List (String × ℤ))) (p : String × ℤ) :
    Option (ℚ × String × ℚ × List (String × ℤ)) :=
  let trial := incrCap caps p.1
  let d := duration_with tasks base hours_per_day trial
  let improvement := curr - d
  match best with
  | none => some (improvement, p.1, d, trial)
  | some b =>
    if improvement > b.1 then some (improvement, p.1, d, trial) else some b

/-- The best-trial scan of one search step, over the capacity keys in
order.  `none` only for an empty capacity map (the `if not best` break
of the source). -/
def bestTrial (tasks : List Task) (base : String → BaseRec)
    (hours_per_day : ℚ) (caps : List (String × ℤ)) (curr : ℚ) :
    Option (ℚ × String × ℚ × List (String × ℤ)) :=
  caps.foldl (trialStep tasks base hours_per_day caps curr) none

/-- The greedy hill-climb loop of `suggest_capacities_to_hit_target`.
The fuel is `max_steps - steps`, so `fuel = 0` is exactly the
`steps < max_steps` guard failing; `steps` counts accepted steps as in
the source. -/
def suggestLoop (tasks : List Task) (base : String → BaseRec)
    (hours_per_day : ℚ) (target_days : ℚ) :
    Nat → List (String × ℤ) → ℚ → Nat → List (String × ℤ) × ℚ × Nat
  | 0, caps, curr, steps => (caps, curr, steps)
  | fuel + 1, caps, curr, steps =>
    if curr > target_days then
      match bestTrial tasks base hours_per_day caps curr with
      | none => (caps, curr, steps)
      | some b =>
        if b.1 ≤ 1 / 1000000 then (caps, curr, steps)
        else suggestLoop tasks base hours_per_day target_days fuel
          b.2.2.2 b.2.2.1 (steps + 1)
    else (caps, curr, steps)

/-- The capacity map the pooled search starts from: the input clamped
below at 1, then every category appearing in the task set defaulted
to 1.  The source iterates a Python `set` of categories in unspecified
hash order; we fix first-occurrence order — no property proved below
depends on it. -/
def suggestInit (tasks : List Task) (initial_caps : List (String × ℤ)) :
    List (String × ℤ) :=
  let caps0 := initial_caps.map (fun p => (p.1, max 1 p.2))
  let cats := (tasks.filterMap
    (fun t => if truthy? t.crew_category then t.crew_category else none)).dedup
  cats.foldl (fun m c => setdefaultCap m c 1) caps0

/-- `suggest_capacities_to_hit_target(...)`, returning
`(suggested_caps, est_duration_days, steps_taken)`. -/
def suggest_capacities_to_hit_target (tasks : List Task)
    (base : String → BaseRec) (hours_per_day : ℚ) (pool_by_category : Bool)
    (initial_caps : List (String × ℤ)) (target_days : ℚ) (max_steps : Nat) :
    List (String × ℤ) × ℚ × Nat :=
  if !pool_by_category then
    (initial_caps.map (fun p => (p.1, max 1 p.2)),
      compute_project_metrics (level_resources tasks base false [])
        hours_per_day,
      0)
  else
    let caps1 := suggestInit tasks initial_caps
    suggestLoop tasks base hours_per_day target_days max_steps caps1
      (duration_with tasks base hours_per_day caps1) 0

/-- The durations committed by the accepted steps of `suggestLoop`, in
order: an observer sharing the loop's branching exactly. -/
def suggestTrace (tasks : List Task) (base : String → BaseRec)
    (hours_per_day : ℚ) (target_days : ℚ) :
    Nat → List (String × ℤ) → ℚ → List ℚ
  | 0, _, _ => []
  | fuel + 1, caps, curr =>
    if curr > target_days then
      match bestTrial tasks base hours_per_day caps curr with
      | none => []
      | some b =>
        if b.1 ≤ 1 / 1000000 then []
        else b.2.2.1 ::
          suggestTrace tasks base hours_per_day target_days fuel b.2.2.2 b.2.2.1
    else []

/-- The `(category, start, finish)` view of a schedule's entries, for
stating the pooled concurrency bound over a finished schedule. -/
def schedIntervals (sched : List (String × Entry)) : List SchedRec :=
  sched.map (fun p => ⟨strOr p.2.crew_category "UNSPEC", p.2.start, p.2.finish⟩)

/-! ### Helper lemmas -/

theorem insertByKey_perm (lt : α → α → Bool) (a : α) (l : List α) :
    (insertByKey lt a l).Perm (a :: l) := by
  induction l with
  | nil => exact List.Perm.refl _
  | cons b l ih =>
    simp only [insertByKey]
    split
    · exact (ih.cons b).trans (List.Perm.swap a b l)
    · exact List.Perm.refl _

theorem sortStable_perm (lt : α → α → Bool) (l : List α) :
    (sortStable lt l).Perm l := by
  induction l with
  | nil => exact List.Perm.refl _
  | cons a l ih =>
    exact (insertByKey_perm lt a (sortStable lt l)).trans (ih.cons a)

theorem find?_key_map_overwrite (m : List (String × Entry)) (k : String)
    (v : Entry) (h : m.any (fun p => p.1 == k) = true) :
    (m.map (fun p => if p.1 == k then (k, v) else p)).find?
      (fun p => p.1 == k) = some (k, v) := by
  induction m with
  | nil => simp at h
  | cons p m ih =>
    simp only [List.any_cons, Bool.or_eq_true] at h
    by_cases hp : (p.1 == k) = true
    · simp [List.find?, hp]
    · have hm : m.any (fun p => p.1 == k) = true := by
        rcases h with h | h
        · exact absurd h hp
        · exact h
      rw [List.map_cons, if_neg hp]
      exact (@List.find?_cons_of_neg _ (fun q => q.1 == k) p _ hp).trans (ih hm)

theorem find?_key_map_ne (m : List (String × Entry)) {k k' : String}
    (v : Entry) (h : k' ≠ k) :
    (m.map (fun p => if p.1 == k then (k, v) else p)).find?
      (fun p => p.1 == k') = m.find? (fun p => p.1 == k') := by
  induction m with
  | nil => rfl
  | cons p m ih =>
    have hkk' : ((k : String) == k') = false := by
      simp only [beq_eq_false_iff_ne, ne_eq]
      exact fun hkk => h hkk.symm
    by_cases hp : (p.1 == k) = true
    · have hpk : p.1 = k := by simpa using hp
      have h2 : (p.1 == k') = false := by rw [hpk]; exact hkk'
      simp only [List.map_cons, if_pos hp, List.find?, hkk', h2]
      exact ih
    · simp only [List.map_cons, if_neg hp, List.find?]
      cases hq : (p.1 == k') with
      | true => rfl
      | false => exact ih

theorem find?_key_none (m : List (String × Entry)) (k : String)
    (h : m.any (fun p => p.1 == k) = false) :
    m.find? (fun p => p.1 == k) = none := by
  induction m with
  | nil => rfl
  | cons p m ih =>
    simp only [List.any_cons, Bool.or_eq_false_iff] at h
    simp only [List.find?, h.1]
    exact ih h.2

theorem dlookup_setEntry_self (m : List (String × Entry)) (k : String)
    (v : Entry) : dlookup (setEntry m k v) k = some v := by
  unfold dlookup setEntry
  by_cases h : m.any (fun p => p.1 == k) = true
  · rw [if_pos h, find?_key_map_overwrite m k v h]; rfl
  · rw [if_neg h, List.find?_append,
      find?_key_none m k (Bool.eq_false_iff.2 h)]
    simp [List.find?]

theorem dlookup_setEntry_ne (m : List (String × Entry)) {k k' : String}
    (v : Entry) (h : k' ≠ k) : dlookup (setEntry m k v) k' = dlookup m k' := by
  unfold dlookup setEntry
  by_cases hm : m.any (fun p => p.1 == k) = true
  · rw [if_pos hm, find?_key_map_ne m v h]
  · rw [if_neg hm, List.find?_append]
    cases hf : m.find? (fun p => p.1 == k') with
    | some p => simp [hf]
    | none =>
      have hkk' : ((k : String) == k') = false := by
        simp only [beq_eq_false_iff_ne, ne_eq]
        exact fun hkk => h hkk.symm
      simp [hf, List.find?, hkk']

theorem mem_setEntry {m : List (String × Entry)} {k : String} {v : Entry}
    {q : String × Entry} (hq : q ∈ setEntry m k v) : q = (k, v) ∨ q ∈ m := by
  unfold setEntry at hq
  split at hq
  · rcases List.mem_map.1 hq with ⟨p, hp, hfp⟩
    by_cases hcond : (p.1 == k) = true
    · left; rw [← hfp, if_pos hcond]
    · right; rw [← hfp, if_neg hcond]; exact hp
  · rcases List.mem_append.1 hq with h | h
    · right; exact h
    · left; simpa using h

theorem mem_blockingFinishes {recs : List SchedRec} {cat : String} {s x : ℚ}
    (hx : x ∈ blockingFinishes recs cat s) :
    ∃ r ∈ recs, r.cat = cat ∧ s < r.finish ∧ r.finish = x := by
  rcases List.mem_map.1 hx with ⟨r, hr, hfin⟩
  rcases List.mem_filter.1 hr with ⟨hmem, hpred⟩
  simp only [Bool.and_eq_true, beq_iff_eq, decide_eq_true_iff] at hpred
  exact ⟨r, hmem, hpred.1, hpred.2, hfin⟩

theorem blockingFinishes_gt {recs : List SchedRec} {cat : String} {s x : ℚ}
    (hx : x ∈ blockingFinishes recs cat s) : s < x := by
  rcases mem_blockingFinishes hx with ⟨r, _, _, hlt, hfin⟩
  exact hfin ▸ hlt

theorem blockingFinishes_ne_nil {recs : List SchedRec} {cat : String}
    {cap : ℤ} {s : ℚ} (hcap : 1 ≤ cap)
    (h : cap ≤ (cat_active_at recs cat s : ℤ)) :
    blockingFinishes recs cat s ≠ [] := by
  have hpos : 0 < cat_active_at recs cat s := by
    have : (1 : ℤ) ≤ (cat_active_at recs cat s : ℤ) := le_trans hcap h
    exact_mod_cast this
  rcases List.countP_pos_iff.1 hpos with ⟨r, hr, hpred⟩
  simp only [Bool.and_eq_true, beq_iff_eq, decide_eq_true_iff] at hpred
  have hmem : r.finish ∈ blockingFinishes recs cat s := by
    refine List.mem_map.2 ⟨r, List.mem_filter.2 ⟨hr, ?_⟩, rfl⟩
    simp only [Bool.and_eq_true, beq_iff_eq, decide_eq_true_iff]
    exact ⟨hpred.1.1, hpred.2⟩
  exact List.ne_nil_of_mem hmem

theorem admitFuel_ge {recs : List SchedRec} {cat : String} {cap : ℤ} {dur : ℚ} :
    ∀ {fuel : Nat} {s r : ℚ},
      admitFuel recs cat cap dur fuel s = some r → s ≤ r := by
  intro fuel
  induction fuel with
  | zero =>
    intro s r h
    simp only [admitFuel] at h
    split at h
    · exact absurd h (by simp)
    · exact le_of_eq (Option.some.inj h)
  | succ f ih =>
    intro s r h
    simp only [admitFuel] at h
    split at h
    · cases hmin : (blockingFinishes recs cat s).min? with
      | none => rw [hmin] at h; exact absurd h (by simp)
      | some m =>
        rw [hmin] at h
        have hmem : m ∈ blockingFinishes recs cat s :=
          List.min?_mem (fun a b => min_choice a b) hmin
        exact le_trans (le_of_lt (blockingFinishes_gt hmem)) (ih h)
    · exact le_of_eq (Option.some.inj h)

theorem length_filter_mono {l : List α} {p q : α → Bool}
    (himp : ∀ x ∈ l, q x = true → p x = true) :
    (l.filter q).length ≤ (l.filter p).length := by
  induction l with
  | nil => exact le_refl _
  | cons a l ih =>
    have ih' := ih (fun x hx => himp x (List.mem_cons_of_mem a hx))
    by_cases hq : q a = true
    · rw [List.filter_cons_of_pos hq,
        List.filter_cons_of_pos (himp a (List.mem_cons_self a l) hq)]
      simpa using ih'
    · rw [List.filter_cons_of_neg (by simpa using hq)]
      by_cases hp : p a = true
      · rw [List.filter_cons_of_pos hp]
        exact le_trans ih' (Nat.le_succ _)
      · rw [List.filter_cons_of_neg (by simpa using hp)]
        exact ih'

theorem length_filter_lt {l : List α} {p q : α → Bool}
    (himp : ∀ x ∈ l, q x = true → p x = true) {x : α} (hx : x ∈ l)
    (hpx : p x = true) (hqx : q x = false) :
    (l.filter q).length < (l.filter p).length := by
  induction l with
  | nil => exact absurd hx (List.not_mem_nil x)
  | cons a l ih =>
    have himp' : ∀ y ∈ l, q y = true → p y = true :=
      fun y hy => himp y (List.mem_cons_of_mem a hy)
    rcases List.mem_cons.1 hx with rfl | hxl
    · rw [List.filter_cons_of_pos hpx, List.filter_cons_of_neg (by simp [hqx])]
      exact Nat.lt_succ_of_le (length_filter_mono himp')
    · have ih' := ih himp' hxl
      by_cases hq : q a = true
      · rw [List.filter_cons_of_pos hq,
          List.filter_cons_of_pos (himp a (List.mem_cons_self a l) hq)]
        simpa using ih'
      · rw [List.filter_cons_of_neg (by simpa using hq)]
        by_cases hp : p a = true
        · rw [List.filter_cons_of_pos hp]
          exact Nat.lt_succ_of_le (le_of_lt ih')
        · rw [List.filter_cons_of_neg (by simpa using hp)]
          exact ih'

/-- The count of same-category records finishing after `s`: the measure
that each jump of the admission loop strictly decreases. -/
def blockCount (recs : List SchedRec) (cat : String) (s : ℚ) : Nat :=
  (recs.filter (fun r => r.cat == cat && decide (s < r.finish))).length

theorem admitFuel_isSome {recs : List SchedRec} {cat : String} {cap : ℤ}
    {dur : ℚ} (hcap : 1 ≤ cap) :
    ∀ {fuel : Nat} {s : ℚ}, blockCount recs cat s < fuel →
      (admitFuel recs cat cap dur fuel s).isSome = true := by
  intro fuel
  induction fuel with
  | zero => intro s h; exact absurd h (Nat.not_lt_zero _)
  | succ f ih =>
    intro s hfuel
    simp only [admitFuel]
    split
    · next hcond =>
      have hne := blockingFinishes_ne_nil hcap hcond.2
      cases hmin : (blockingFinishes recs cat s).min? with
      | none => exact absurd (List.min?_eq_none_iff.1 hmin) hne
      | some m =>
        have hmem : m ∈ blockingFinishes recs cat s :=
          List.min?_mem (fun a b => min_choice a b) hmin
        have hsm : s < m := blockingFinishes_gt hmem
        rcases mem_blockingFinishes hmem with ⟨r0, hr0, hcat0, _, hfin0⟩
        have hdrop : blockCount recs cat m < blockCount recs cat s := by
          unfold blockCount
          refine length_filter_lt ?_ hr0 ?_ ?_
          · intro y _ hy
            simp only [Bool.and_eq_true, beq_iff_eq, decide_eq_true_iff] at hy ⊢
            exact ⟨hy.1, lt_trans hsm hy.2⟩
          · simp only [Bool.and_eq_true, beq_iff_eq, decide_eq_true_iff]
            exact ⟨hcat0, hfin0 ▸ hsm⟩
          · simp [hfin0]
        exact ih (Nat.lt_of_lt_of_le hdrop (Nat.lt_succ_iff.1 hfuel))
    · rfl

theorem startOf_ge_est (pool : Bool) (capmap : List (String × ℤ))
    (st : LevelState) (t : Task) (est dur : ℚ) :
    est ≤ startOf pool capmap st t est dur := by
  unfold startOf
  split
  · exact le_refl est
  · split
    · cases h : admitFuel st.scheduled (strOr t.crew_category "UNSPEC")
        (max 1 ((capLookup capmap (strOr t.crew_category "UNSPEC")).getD 1))
        dur (st.scheduled.length + 1) est with
      | none => simp [h]
      | some r => simp only [h, Option.getD_some]; exact admitFuel_ge h
    · exact le_max_left _ _

theorem es_le_estOf (tasks : List Task) (base : String → BaseRec)
    (sched : List (String × Entry)) (t : Task) :
    (base t.id).es ≤ estOf tasks base sched t :=
  le_max_right _ _

theorem level_fold_good (tasks : List Task) (base : String → BaseRec)
    (pool : Bool) (capmap : List (String × ℤ)) :
    ∀ (l : List Task) (st : LevelState),
      (∀ q ∈ st.schedule,
        0 ≤ q.2.delay_vs_cpm_start ∧ 0 ≤ q.2.delay_vs_cpm_finish ∧
        (base q.1).es ≤ q.2.start ∧ (base q.1).ef ≤ q.2.finish) →
      (∀ u ∈ l, (base u.id).ef ≤ (base u.id).es + durOf u) →
      ∀ q ∈ ((l.foldl (levelStep tasks base pool capmap) st).schedule),
        0 ≤ q.2.delay_vs_cpm_start ∧ 0 ≤ q.2.delay_vs_cpm_finish ∧
        (base q.1).es ≤ q.2.start ∧ (base q.1).ef ≤ q.2.finish := by
  intro l
  induction l with
  | nil => intro st hst _ q hq; exact hst q hq
  | cons u l ih =>
    intro st hst hdur q hq
    rw [List.foldl_cons] at hq
    refine ih (levelStep tasks base pool capmap st u) ?_
      (fun v hv => hdur v (List.mem_cons_of_mem u hv)) q hq
    intro q' hq'
    simp only [levelStep] at hq'
    rcases mem_setEntry hq' with rfl | hold
    · have hstart : estOf tasks base st.schedule u ≤
          startOf pool capmap st u (estOf tasks base st.schedule u) (durOf u) :=
        startOf_ge_est _ _ _ _ _ _
      have hes : (base u.id).es ≤
          startOf pool capmap st u (estOf tasks base st.schedule u) (durOf u) :=
        le_trans (es_le_estOf tasks base st.schedule u) hstart
      refine ⟨le_max_left _ _, le_max_left _ _, hes, ?_⟩
      calc (base u.id).ef ≤ (base u.id).es + durOf u :=
            hdur u (List.mem_cons_self u l)
        _ ≤ startOf pool capmap st u (estOf tasks base st.schedule u) (durOf u)
              + durOf u := by exact add_le_add_right hes _
    · exact hst q' hold

theorem dlookup_fold_ne (tasks : List Task) (base : String → BaseRec)
    (pool : Bool) (capmap : List (String × ℤ)) :
    ∀ (l : List Task) (st : LevelState) (k : String), (∀ u ∈ l, u.id ≠ k) →
      dlookup ((l.foldl (levelStep tasks base pool capmap) st).schedule) k
        = dlookup st.schedule k := by
  intro l
  induction l with
  | nil => intro st k _; rfl
  | cons u l ih =>
    intro st k hne
    rw [List.foldl_cons,
      ih (levelStep tasks base pool capmap st u) k
        (fun v hv => hne v (List.mem_cons_of_mem u hv))]
    simp only [levelStep]
    exact dlookup_setEntry_ne st.schedule _
      (fun hk => hne u (List.mem_cons_self u l) hk.symm)

/-- The record invariant of the backward pass: slack is clamped at 0 and
criticality is the `1e-9` test on it. -/
def cpmGood (f : String → Option CpmRec) : Prop :=
  ∀ tid r, f tid = some r →
    r.slack = max 0 (r.ls - r.es) ∧ 0 ≤ r.slack ∧
    (r.critical = true ↔ r.slack < 1 / 1000000000)

theorem bwdStep_good {durs : String → ℚ} {succs : String → List String}
    {m : String → Option (ℚ × ℚ)} {proj : ℚ}
    {acc : Option (String → Option CpmRec)} {tid : String}
    (hacc : ∀ g, acc = some g → cpmGood g) :
    ∀ g, bwdStep durs succs m proj acc tid = some g → cpmGood g := by
  intro g hg
  unfold bwdStep at hg
  cases acc with
  | none => exact absurd hg (by simp)
  | some f =>
    have hgood : cpmGood f := hacc f rfl
    dsimp only at hg
    cases hm : m tid with
    | none => rw [hm] at hg; exact absurd hg (by simp)
    | some esef =>
      rw [hm] at hg
      dsimp only at hg
      split at hg
      · exact absurd hg (by simp)
      · next lf _ =>
        rcases Option.some.inj hg with rfl
        intro id r hr
        dsimp only at hr
        by_cases hid : id = tid
        · rw [if_pos hid] at hr
          rcases Option.some.inj hr with rfl
          refine ⟨rfl, le_max_left _ _, ?_⟩
          rw [decide_eq_true_iff,
            abs_of_nonneg (le_max_left 0 (lf - durs tid - esef.1))]
        · rw [if_neg hid] at hr
          exact hgood id r hr

theorem cpmBwd_good {tasks : List Task} {m : String → Option (ℚ × ℚ)}
    {proj : ℚ} {f : String → Option CpmRec}
    (h : cpmBwd tasks m proj = some f) : cpmGood f := by
  unfold cpmBwd at h
  revert h
  generalize (topological_order tasks (some (depsOf tasks))).reverse = l
  have hstart : ∀ g, (some (fun _ => none) :
      Option (String → Option CpmRec)) = some g → cpmGood g := by
    intro g hg
    rcases Option.some.inj hg with rfl
    intro tid r hr
    exact absurd hr (by simp)
  revert hstart
  generalize (some (fun _ => none) : Option (String → Option CpmRec)) = acc
  intro hstart h
  induction l generalizing acc with
  | nil => exact hstart f h
  | cons tid l ih =>
    rw [List.foldl_cons] at h
    exact ih _ (fun g hg => bwdStep_good hstart g hg) h

theorem trialStep_fst {tasks : List Task} {base : String → BaseRec}
    {hours_per_day : ℚ} {caps : List (String × ℤ)} {curr : ℚ}
    {acc : Option (ℚ × String × ℚ × List (String × ℤ))} {p : String × ℤ}
    (hacc : ∀ b, acc = some b → b.1 = curr - b.2.2.1) :
    ∀ b, trialStep tasks base hours_per_day caps curr acc p = some b →
      b.1 = curr - b.2.2.1 := by
  intro b hb
  unfold trialStep at hb
  cases acc with
  | none => rcases Option.some.inj hb with rfl; rfl
  | some b' =>
    dsimp only at hb
    split at hb
    · rcases Option.some.inj hb with rfl; rfl
    · rcases Option.some.inj hb with rfl; exact hacc b' rfl

theorem bestTrial_fst (tasks : List Task) (base : String → BaseRec)
    (hours_per_day : ℚ) (caps : List (String × ℤ)) (curr : ℚ) :
    ∀ b, bestTrial tasks base hours_per_day caps curr = some b →
      b.1 = curr - b.2.2.1 := by
  unfold bestTrial
  have main : ∀ (l : List (String × ℤ))
      (acc : Option (ℚ × String × ℚ × List (String × ℤ))),
      (∀ b, acc = some b → b.1 = curr - b.2.2.1) →
      ∀ b, l.foldl (trialStep tasks base hours_per_day caps curr) acc = some b →
        b.1 = curr - b.2.2.1 := by
    intro l
    induction l with
    | nil => intro acc hacc; exact hacc
    | cons p l ih =>
      intro acc hacc
      rw [List.foldl_cons]
      exact ih _ (trialStep_fst hacc)
  exact main caps none (fun b hb => absurd hb (by simp))

theorem suggestLoop_steps (tasks : List Task) (base : String → BaseRec)
    (hours_per_day target_days : ℚ) :
    ∀ (fuel : Nat) (caps : List (String × ℤ)) (curr : ℚ) (steps : Nat),
      (suggestLoop tasks base hours_per_day target_days fuel caps curr steps).2.2
        = steps +
          (suggestTrace tasks base hours_per_day target_days fuel caps curr).length := by
  intro fuel
  induction fuel with
  | zero => intro caps curr steps; rfl
  | succ f ih =>
    intro caps curr steps
    simp only [suggestLoop, suggestTrace]
    by_cases hgt : curr > target_days
    · rw [if_pos hgt, if_pos hgt]
      cases hbt : bestTrial tasks base hours_per_day caps curr with
      | none => rfl
      | some b =>
        dsimp only
        by_cases heps : b.1 ≤ 1 / 1000000
        · rw [if_pos heps, if_pos heps]; rfl
        · rw [if_neg heps, if_neg heps]
          rw [ih]
          simp only [List.length_cons]
          omega
    · rw [if_neg hgt, if_neg hgt]; rfl

theorem suggestTrace_length_le (tasks : List Task) (base : String → BaseRec)
    (hours_per_day target_days : ℚ) :
    ∀ (fuel : Nat) (caps : List (String × ℤ)) (curr : ℚ),
      (suggestTrace tasks base hours_per_day target_days fuel caps curr).length
        ≤ fuel := by
  intro fuel
  induction fuel with
  | zero => intro caps curr; exact le_refl 0
  | succ f ih =>
    intro caps curr
    simp only [suggestTrace]
    by_cases hgt : curr > target_days
    · rw [if_pos hgt]
      cases hbt : bestTrial tasks base hours_per_day caps curr with
      | none => simp
      | some b =>
        dsimp only
        by_cases heps : b.1 ≤ 1 / 1000000
        · rw [if_pos heps]; simp
        · rw [if_neg heps]
          simp only [List.length_cons]
          exact Nat.succ_le_succ (ih _ _)
    · rw [if_neg hgt]; simp

theorem suggestTrace_chain (tasks : List Task) (base : String → BaseRec)
    (hours_per_day target_days : ℚ) :
    ∀ (fuel : Nat) (caps : List (String × ℤ)) (curr : ℚ),
      List.Chain' (fun a b => b + 1 / 1000000 < a)
        (curr :: suggestTrace tasks base hours_per_day target_days fuel caps curr) := by
  intro fuel
  induction fuel with
  | zero => intro caps curr; exact List.chain'_singleton curr
  | succ f ih =>
    intro caps curr
    simp only [suggestTrace]
    by_cases hgt : curr > target_days
    · rw [if_pos hgt]
      cases hbt : bestTrial tasks base hours_per_day caps curr with
      | none => exact List.chain'_singleton curr
      | some b =>
        dsimp only
        by_cases heps : b.1 ≤ 1 / 1000000
        · rw [if_pos heps]; exact List.chain'_singleton curr
        · rw [if_neg heps]
          refine List.chain'_cons.2 ⟨?_, ih b.2.2.2 b.2.2.1⟩
          have hfst := bestTrial_fst tasks base hours_per_day caps curr b hbt
          have : 1 / 1000000 < b.1 := lt_of_not_le heps
          linarith [hfst ▸ this]
    · rw [if_neg hgt]; exact List.chain'_singleton curr

theorem clamp_of_all_ge (l : List (String × ℤ))
    (h : l.all (fun p => decide (1 ≤ p.2)) = true) :
    l.map (fun p => (p.1, max 1 p.2)) = l := by
  induction l with
  | nil => rfl
  | cons p l ih =>
    simp only [List.all_cons, Bool.and_eq_true, decide_eq_true_iff] at h
    rw [List.map_cons, max_eq_right h.1, Prod.mk.eta,
      ih (by simpa using h.2)]

/-! ### Claims

Concrete fixtures are named per claim (`c1...`, `c2...`, ...). -/

def c1task1 : Task := ⟨"t1", "T1", none, none, 1, some 8, none, some "X", []⟩

def c1task2 : Task := ⟨"t2", "T2", none, none, 2, some 4, none, some "X", []⟩

def c1base : String → BaseRec := fun i => if i = "t1" then ⟨0, 8⟩ else ⟨0, 4⟩

/-- C1: the pooled-mode capacity invariant FAILS on the code (status:
code_bug).  Two tasks of category `"X"` with baseline ES 0 under
capacity 1: the second task's candidate start 0 coincides with the first
interval's start, the strict test `rec.start < tp < rec.finish` does not
count it, and both are scheduled at 0.  At the instant `tp = 2` two
open intervals of category `"X"` overlap although the capacity is 1. -/
theorem c1_pooled_capacity_violated :
    capLookup [("X", 1)] "X" = some 1 ∧
    (dlookup (level_resources [c1task1, c1task2] c1base true [("X", 1)]) "t1").map
      (fun e => (e.start, e.finish)) = some (0, 8) ∧
    (dlookup (level_resources [c1task1, c1task2] c1base true [("X", 1)]) "t2").map
      (fun e => (e.start, e.finish)) = some (0, 4) ∧
    1 < cat_active_at
      (schedIntervals (level_resources [c1task1, c1task2] c1base true [("X", 1)]))
      "X" 2 := by
  with_unfolding_all decide

def c2taskA : Task := ⟨"A", "A", none, none, 1, some 8, none, some "M", []⟩

def c2taskB : Task := ⟨"B", "B", none, none, 2, some 4, none, some "M", ["A"]⟩

def c2taskC : Task := ⟨"C", "C", none, none, 3, some 2, none, some "M", ["A"]⟩

/-- C2: on the A/B/C scenario the baseline is exactly as claimed
(A=(0,8), B=(8,12), C=(8,10), project finish 12 = EF(B), B critical with
slack 0, C slack 2), but pooled leveling under capacity 1 DIVERGES from
the claim (status: code_bug): C is admitted at its candidate start 8
because B's interval starting exactly at 8 is not counted by the strict
open-interval test, so C=(8,10) with delay 0 and maximal finish 12 — not
C=(12,14), total 14 and delay 4. -/
theorem c2_scenario_baseline_ok_leveling_diverges :
    cpmLookup [c2taskA, c2taskB, c2taskC] "A" = some ⟨8, 0, 8, 0, 8, 0, true⟩ ∧
    cpmLookup [c2taskA, c2taskB, c2taskC] "B" = some ⟨4, 8, 12, 8, 12, 0, true⟩ ∧
    cpmLookup [c2taskA, c2taskB, c2taskC] "C" = some ⟨2, 8, 10, 10, 12, 2, false⟩ ∧
    (dlookup (level_resources [c2taskA, c2taskB, c2taskC]
        (baseOfCpm [c2taskA, c2taskB, c2taskC]) true [("M", 1)]) "A").map
      (fun e => (e.start, e.finish)) = some (0, 8) ∧
    (dlookup (level_resources [c2taskA, c2taskB, c2taskC]
        (baseOfCpm [c2taskA, c2taskB, c2taskC]) true [("M", 1)]) "B").map
      (fun e => (e.start, e.finish)) = some (8, 12) ∧
    (dlookup (level_resources [c2taskA, c2taskB, c2taskC]
        (baseOfCpm [c2taskA, c2taskB, c2taskC]) true [("M", 1)]) "C").map
      (fun e => (e.start, e.finish, e.delay_vs_cpm_start)) = some (8, 10, 0) ∧
    ((level_resources [c2taskA, c2taskB, c2taskC]
        (baseOfCpm [c2taskA, c2taskB, c2taskC]) true [("M", 1)]).map
      (fun p => p.2.finish)).max? = some 12 := by
  with_unfolding_all decide

def c3taskX : Task := ⟨"x", "X", none, none, 1, some 1, none, none, ["y"]⟩

def c3taskY : Task := ⟨"y", "Y", none, none, 2, some 1, none, none, ["x"]⟩

/-- C3: on a two-task dependency cycle `compute_cpm_baseline` does NOT
return a mapping (status: code_bug): the cyclic ids are appended to the
topological order, but the forward pass then reads `info[p]["ef"]` of a
predecessor that has not been processed — a `KeyError`, modelled as
`none`. -/
theorem c3_cycle_raises :
    (compute_cpm_baseline [c3taskX, c3taskY]).isNone = true := by
  with_unfolding_all decide

def c4taskP : Task := ⟨"p", "P", none, none, 1, some 8, some "c", none, []⟩

def c4taskQ : Task := ⟨"q", "Q", none, none, 2, some 8, some "c", none, []⟩

def c4taskZ : Task := ⟨"z", "Z", none, none, 3, some 2, none, none, ["q"]⟩

def c4base : String → BaseRec := fun i => if i = "z" then ⟨8, 10⟩ else ⟨0, 8⟩

/-- C4 counterexample: a task with no crew identifiers CAN be delayed
past its baseline ES — through a dependency that resource contention
delayed.  `z` (no crew, depends on `q`, baseline ES 8) starts at 16
because `p` and `q` share the exclusive crew code `"c"` and `q` finishes
at 16. -/
theorem c4_counterexample :
    truthy? c4taskZ.crew_category = false ∧ truthy? c4taskZ.crew_code = false ∧
    (c4base "z").es = 8 ∧
    (dlookup (level_resources [c4taskP, c4taskQ, c4taskZ] c4base false []) "z").map
      (fun e => e.start) = some 16 := by
  with_unfolding_all decide

/-- C4 (amended): a task with neither crew code nor crew category and no
in-set dependencies starts exactly at its baseline ES (when that ES is
nonnegative, as every CPM baseline is), in every mode and under every
capacity map, regardless of any contention among other tasks. -/
theorem c4_no_crew_no_deps_starts_at_es
    (tasks : List Task) (base : String → BaseRec) (pool : Bool)
    (capmap : List (String × ℤ)) (t : Task)
    (hmem : t ∈ tasks) (hnodup : (tasks.map (fun u => u.id)).Nodup)
    (hcat : truthy? t.crew_category = false)
    (hcode : truthy? t.crew_code = false)
    (hdeps : levelDeps tasks t.id = []) (hes : 0 ≤ (base t.id).es) :
    (dlookup (level_resources tasks base pool capmap) t.id).map (fun e => e.start)
      = some ((base t.id).es) := by
  have hperm := sortStable_perm (taskLT base) tasks
  have htO : t ∈ sortStable (taskLT base) tasks := hperm.mem_iff.2 hmem
  obtain ⟨l1, l2, hsplit⟩ := List.append_of_mem htO
  have hnodupO : ((sortStable (taskLT base) tasks).map (fun u => u.id)).Nodup :=
    ((hperm.map (fun u => u.id)).symm).nodup hnodup
  rw [hsplit, List.map_append, List.map_cons] at hnodupO
  have hl2 : ∀ u ∈ l2, u.id ≠ t.id := by
    intro u hu
    have h1 := (List.nodup_cons.1 hnodupO.of_append_right).1
    intro heq
    exact h1 (heq ▸ List.mem_map_of_mem (fun u => u.id) hu)
  unfold level_resources
  rw [hsplit, List.foldl_append, List.foldl_cons,
    dlookup_fold_ne tasks base pool capmap l2 _ t.id hl2]
  simp only [levelStep]
  rw [dlookup_setEntry_self]
  simp only [Option.map_some']
  have hcond : (!(truthy? t.crew_category) && !(truthy? t.crew_code)) = true := by
    rw [hcat, hcode]; rfl
  have hest : estOf tasks base
      ((List.foldl (levelStep tasks base pool capmap) ⟨[], [], fun _ => 0⟩ l1).schedule)
      t = (base t.id).es := by
    unfold estOf
    rw [hdeps]
    simp only [List.foldl_nil]
    exact max_eq_right hes
  congr 1
  unfold startOf
  rw [if_pos hcond]
  exact hest

def c4wtask : Task := ⟨"w4", "W4", none, none, 1, some 3, none, none, []⟩

/-- C4 witness: the amended claim at a concrete input. -/
theorem c4_witness :
    (dlookup (level_resources [c4wtask] (fun _ => ⟨0, 0⟩) true []) "w4").map
      (fun e => e.start) = some 0 :=
  c4_no_crew_no_deps_starts_at_es [c4wtask] (fun _ => ⟨0, 0⟩) true [] c4wtask
    (by with_unfolding_all decide) (by with_unfolding_all decide)
    (by with_unfolding_all decide) (by with_unfolding_all decide)
    (by with_unfolding_all decide) (by with_unfolding_all decide)

def c5u1 : Task := ⟨"u1", "U1", none, none, 1, some 4, none, some "X", []⟩

def c5u2 : Task := ⟨"u2", "U2", none, none, 2, some 4, none, some "Y", []⟩

def c5base : String → BaseRec := fun _ => ⟨0, 4⟩

/-- C5 counterexample: in exclusive mode a task with no crew code does
NOT fall back to its crew category — both codeless tasks key the
constant `"UNSPEC"`, so two ready tasks with DISTINCT categories `"X"`
and `"Y"` are serialized: the second starts at 4, at the first one's
finish, not at its ready time 0. -/
theorem c5_counterexample :
    c5u1.crew_code = none ∧ c5u2.crew_code = none ∧
    c5u1.crew_category = some "X" ∧ c5u2.crew_category = some "Y" ∧
    (dlookup (level_resources [c5u1, c5u2] c5base false []) "u1").map
      (fun e => (e.start, e.finish)) = some (0, 4) ∧
    (dlookup (level_resources [c5u1, c5u2] c5base false []) "u2").map
      (fun e => e.start) = some 4 := by
  with_unfolding_all decide

/-- C5 (amended): in exclusive mode the resource identifier of a crewed
task is `crew_code or "UNSPEC"` — the crew category is never consulted,
so all codeless tasks share one watermark.  For any state and any task
with a truthy crew identifier, the scheduled start is
`max(est, busyUntil[code])` and afterwards `busyUntil[code]` equals its
finish (`start + duration`). -/
theorem c5_exclusive_unspec_watermark
    (tasks : List Task) (base : String → BaseRec) (capmap : List (String × ℤ))
    (st : LevelState) (t : Task)
    (hcrew : (truthy? t.crew_category || truthy? t.crew_code) = true) :
    (dlookup (levelStep tasks base false capmap st t).schedule t.id).map
        (fun e => e.start)
      = some (max (estOf tasks base st.schedule t)
          (st.busy (strOr t.crew_code "UNSPEC"))) ∧
    (levelStep tasks base false capmap st t).busy (strOr t.crew_code "UNSPEC")
      = max (estOf tasks base st.schedule t)
          (st.busy (strOr t.crew_code "UNSPEC")) + durOf t := by
  have hcond : (!(truthy? t.crew_category) && !(truthy? t.crew_code)) = false := by
    cases hc : truthy? t.crew_category with
    | true => rfl
    | false =>
      cases hk : truthy? t.crew_code with
      | true => rfl
      | false => rw [hc, hk] at hcrew; exact absurd hcrew (by simp)
  have hstart : startOf false capmap st t (estOf tasks base st.schedule t) (durOf t)
      = max (estOf tasks base st.schedule t)
          (st.busy (strOr t.crew_code "UNSPEC")) := by
    unfold startOf
    rw [if_neg (by rw [hcond]; simp)]
    rw [if_neg (by simp)]
  constructor
  · simp only [levelStep]
    rw [dlookup_setEntry_self]
    simp only [Option.map_some']
    rw [hstart]
  · simp only [levelStep]
    rw [if_neg (by simp : ¬ ((false : Bool) = true)), if_pos rfl, hstart]

def c5wtask : Task := ⟨"w5", "W5", none, none, 1, some 4, some "c1", none, []⟩

/-- C5 witness: the amended claim at a concrete input (code `"c1"`,
empty starting state). -/
theorem c5_witness :
    (dlookup (levelStep [c5wtask] (fun _ => ⟨0, 0⟩) false []
        ⟨[], [], fun _ => 0⟩ c5wtask).schedule "w5").map (fun e => e.start)
      = some 0 ∧
    (levelStep [c5wtask] (fun _ => ⟨0, 0⟩) false []
        ⟨[], [], fun _ => 0⟩ c5wtask).busy "c1" = 4 := by
  have h := c5_exclusive_unspec_watermark [c5wtask] (fun _ => ⟨0, 0⟩) []
    ⟨[], [], fun _ => 0⟩ c5wtask (by with_unfolding_all decide)
  exact ⟨h.1.trans (by with_unfolding_all decide),
    h.2.trans (by with_unfolding_all decide)⟩

/-- C6: every schedule entry has nonnegative delays, and leveling never
assigns a start before the baseline ES; provided the baseline satisfies
`EF ≤ ES + duration` (every CPM baseline does, with equality), the
finish is never before the baseline EF either. -/
theorem c6_delays_nonneg_never_early
    (tasks : List Task) (base : String → BaseRec) (pool : Bool)
    (capmap : List (String × ℤ))
    (hbase : tasks.all
      (fun t => decide ((base t.id).ef ≤ (base t.id).es + durOf t)) = true) :
    ∀ k e, (k, e) ∈ level_resources tasks base pool capmap →
      0 ≤ e.delay_vs_cpm_start ∧ 0 ≤ e.delay_vs_cpm_finish ∧
      (base k).es ≤ e.start ∧ (base k).ef ≤ e.finish := by
  intro k e hmem
  have hall : ∀ u ∈ tasks, (base u.id).ef ≤ (base u.id).es + durOf u := by
    intro u hu
    simpa using List.all_eq_true.1 hbase u hu
  have hperm := sortStable_perm (taskLT base) tasks
  exact level_fold_good tasks base pool capmap (sortStable (taskLT base) tasks)
    ⟨[], [], fun _ => 0⟩ (fun q hq => absurd hq (List.not_mem_nil q))
    (fun u hu => hall u (hperm.mem_iff.1 hu)) (k, e) hmem

def c6wtask : Task := ⟨"w6", "W6", none, none, 1, some 2, none, none, []⟩

def c6wbase : String → BaseRec := fun _ => ⟨0, 2⟩

def c6wentry : Entry := ⟨"W6", none, none, 0, 2, 2, none, none, 0, 0⟩

/-- C6 witness: the claim at a concrete input. -/
theorem c6_witness :
    0 ≤ c6wentry.delay_vs_cpm_start ∧ 0 ≤ c6wentry.delay_vs_cpm_finish ∧
    (c6wbase "w6").es ≤ c6wentry.start ∧ (c6wbase "w6").ef ≤ c6wentry.finish :=
  c6_delays_nonneg_never_early [c6wtask] c6wbase false []
    (by with_unfolding_all decide) "w6" c6wentry (by with_unfolding_all decide)

/-- C7: every record produced by `compute_cpm_baseline` has
`slack = max(0, LS − ES)`, hence `slack ≥ 0`, and the critical flag
holds iff `slack < 1e-9` (the source tests `abs(slack) < 1e-9`, and the
clamped slack is nonnegative). -/
theorem c7_slack_clamped_critical_iff
    (tasks : List Task) (tid : String) (r : CpmRec)
    (h : cpmLookup tasks tid = some r) :
    r.slack = max 0 (r.ls - r.es) ∧ 0 ≤ r.slack ∧
    (r.critical = true ↔ r.slack < 1 / 1000000000) := by
  unfold cpmLookup at h
  rcases Option.bind_eq_some.1 h with ⟨f, hcomp, hf⟩
  unfold compute_cpm_baseline at hcomp
  split at hcomp
  · exact absurd hcomp (by simp)
  · split at hcomp
    · exact absurd hcomp (by simp)
    · exact cpmBwd_good hcomp tid r hf

def c7wtask : Task := ⟨"w7", "W7", none, none, 1, some 8, none, none, []⟩

def c7wrec : CpmRec := ⟨8, 0, 8, 0, 8, 0, true⟩

/-- C7 witness: the claim at a concrete input. -/
theorem c7_witness :
    c7wrec.slack = max 0 (c7wrec.ls - c7wrec.es) ∧ 0 ≤ c7wrec.slack ∧
    (c7wrec.critical = true ↔ c7wrec.slack < 1 / 1000000000) :=
  c7_slack_clamped_critical_iff [c7wtask] "w7" c7wrec
    (by with_unfolding_all decide)

/-- C8: with pooling enabled, the durations across accepted steps of the
greedy search form a strictly decreasing sequence — each accepted step
improves by more than the `1e-6` epsilon — starting from the initial
duration, the returned step count equals the number of accepted steps,
and it never exceeds the `max_steps` budget. -/
theorem c8_suggester_strictly_decreasing_and_bounded
    (tasks : List Task) (base : String → BaseRec) (hours_per_day : ℚ)
    (initial_caps : List (String × ℤ)) (target_days : ℚ) (max_steps : Nat) :
    List.Chain' (fun a b => b + 1 / 1000000 < a)
      (duration_with tasks base hours_per_day (suggestInit tasks initial_caps) ::
        suggestTrace tasks base hours_per_day target_days max_steps
          (suggestInit tasks initial_caps)
          (duration_with tasks base hours_per_day (suggestInit tasks initial_caps))) ∧
    (suggest_capacities_to_hit_target tasks base hours_per_day true initial_caps
        target_days max_steps).2.2
      = (suggestTrace tasks base hours_per_day target_days max_steps
          (suggestInit tasks initial_caps)
          (duration_with tasks base hours_per_day
            (suggestInit tasks initial_caps))).length ∧
    (suggest_capacities_to_hit_target tasks base hours_per_day true initial_caps
        target_days max_steps).2.2 ≤ max_steps := by
  have hunfold : suggest_capacities_to_hit_target tasks base hours_per_day true
      initial_caps target_days max_steps
      = suggestLoop tasks base hours_per_day target_days max_steps
          (suggestInit tasks initial_caps)
          (duration_with tasks base hours_per_day (suggestInit tasks initial_caps))
          0 := rfl
  refine ⟨suggestTrace_chain tasks base hours_per_day target_days max_steps _ _,
    ?_, ?_⟩
  · rw [hunfold, suggestLoop_steps]
    simp
  · rw [hunfold, suggestLoop_steps]
    simpa using suggestTrace_length_le tasks base hours_per_day target_days
      max_steps (suggestInit tasks initial_caps)
      (duration_with tasks base hours_per_day (suggestInit tasks initial_caps))

/-- C9 counterexample: with pooling disabled the returned capacity map
is NOT the input unmodified — each value is clamped below at 1:
`{"X": 0}` comes back as `{"X": 1}`. -/
theorem c9_counterexample :
    suggest_capacities_to_hit_target [] (fun _ => ⟨0, 0⟩) 8 false [("X", 0)] 30 30
      = ([("X", 1)], 0, 0) ∧
    ([(("X" : String), (1 : ℤ))] ≠ [("X", 0)]) := by
  with_unfolding_all decide

/-- C9 (amended): with pooling disabled the function performs exactly
one exclusive-mode leveling pass, returns its duration and steps = 0,
and returns the input capacity map with every value clamped below at 1
— which is the input unmodified whenever every input capacity is
already ≥ 1. -/
theorem c9_disabled_pooling_single_pass
    (tasks : List Task) (base : String → BaseRec) (hours_per_day : ℚ)
    (initial_caps : List (String × ℤ)) (target_days : ℚ) (max_steps : Nat) :
    suggest_capacities_to_hit_target tasks base hours_per_day false initial_caps
        target_days max_steps
      = (initial_caps.map (fun p => (p.1, max 1 p.2)),
         compute_project_metrics (level_resources tasks base false [])
           hours_per_day,
         0) ∧
    (initial_caps.all (fun p => decide (1 ≤ p.2)) = true →
      initial_caps.map (fun p => (p.1, max 1 p.2)) = initial_caps) :=
  ⟨rfl, clamp_of_all_ge initial_caps⟩

/-- C9 witness: the amended claim at a concrete input whose capacities
are all ≥ 1, so the map comes back unmodified. -/
theorem c9_witness :
    suggest_capacities_to_hit_target [] (fun _ => ⟨0, 0⟩) 8 false [("X", 2)] 30 5
      = ([("X", 2)], 0, 0) := by
  have h := c9_disabled_pooling_single_pass [] (fun _ => ⟨0, 0⟩) 8 [("X", 2)] 30 5
  rw [h.1, h.2 (by with_unfolding_all decide)]
  with_unfolding_all decide

/-- C10: the pooled admission loop terminates whenever the capacity is
at least 1 (which `level_resources` guarantees via `max(1, ...)`): with
fuel `|scheduled| + 1` the loop always reaches an admitted start,
because a failed test exhibits an interval strictly containing the
candidate, so the jump target `min(finishes)` exists, is strictly
larger, and strictly shrinks the set of same-category finishes beyond
the candidate. -/
theorem c10_admission_terminates (recs : List SchedRec) (cat : String)
    (cap : ℤ) (dur s : ℚ) (hcap : 1 ≤ cap) :
    (admitFuel recs cat cap dur (recs.length + 1) s).isSome = true := by
  apply admitFuel_isSome hcap
  unfold blockCount
  exact Nat.lt_succ_of_le (List.length_filter_le _ _)

/-- C10 witness: the claim at a concrete input (one blocking interval,
capacity 1). -/
theorem c10_witness :
    (admitFuel [⟨"X", 0, 8⟩] "X" 1 4 2 0).isSome = true :=
  c10_admission_terminates [⟨"X", 0, 8⟩] "X" 1 4 0 (by decide)

end CSched
